import Mathlib

/-!
Verification development for the functime panel forecasting engine.

The data model embeds polars frames shallowly: a frame is a list of named,
dtype-tagged columns (`Col`), a panel is a list of (entity, time[, value])
rows, and a single entity's series is a `List ℚ` (exact arithmetic stands in
for floats, so the 1e-6 tolerance contracts become exact equalities).
Functions are translated from `src/functime/forecasting/linear.py`,
`src/functime/feature_extraction/calendar.py` and, where the implementation
lives outside the provided sources, modelled from the specification (each
such definition says so in its doc comment).
-/

namespace Functime

/-- Polars dtypes relevant to the claims: `Categorical`, `Utf8`, and a tag
for every other dtype. -/
inductive DType where
  | cat : DType
  | utf8 : DType
  | other : DType
deriving DecidableEq, Repr

/-- A python keyword-argument value: either a boolean literal or anything
else (only `fit_intercept`'s identity with `True` matters to the code). -/
inductive PyVal where
  | pybool : Bool → PyVal
  | pyother : PyVal
deriving DecidableEq, Repr

/-- Python `**kwargs`: an association list from keyword name to value. -/
abbrev Kwargs := List (String × PyVal)

/-- Python `kwargs.get(k)`: `none` when the key is absent. -/
def kwargs_get (kw : Kwargs) (k : String) : Option PyVal :=
  kw.lookup k

/-- The schema of an exogenous frame `X`: column names with their dtypes. -/
abbrev XSchema := List (String × DType)

/-- The check `len(X.select(pl.col(pl.Categorical)).columns) > 0`: whether `X`
has at least one categorical column. -/
def has_categorical (X : XSchema) : Bool :=
  (X.filter (fun c => c.2 == DType.cat)).length > 0

/-- Function `linear_model._fit` from `src/functime/forecasting/linear.py`: raises the
dummy-variable-trap `ValueError` exactly when `X is not None`, `X` has a
categorical column, and `kwargs.get("fit_intercept") is True`; otherwise it
proceeds to `fit_autoreg` (modelled as `Except.ok ()`). -/
def linear_model_fit (kw : Kwargs) (X : Option XSchema) : Except String Unit :=
  match X with
  | some xf =>
      if has_categorical xf ∧ kwargs_get kw "fit_intercept" = some (PyVal.pybool true) then
        Except.error "Dummy variable trap! Must set fit_intercept=False if X contains categorical columns."
      else
        Except.ok ()
  | none => Except.ok ()

/-- Function `lasso._fit` from `src/functime/forecasting/linear.py`: calls
`fit_autoreg` directly, with no categorical-column check. -/
def lasso_fit (_kw : Kwargs) (_X : Option XSchema) : Except String Unit :=
  Except.ok ()

/-- Function `ridge._fit` from `src/functime/forecasting/linear.py`: calls
`fit_autoreg` directly, with no categorical-column check. -/
def ridge_fit (_kw : Kwargs) (_X : Option XSchema) : Except String Unit :=
  Except.ok ()

/-- Function `elastic_net._fit` from `src/functime/forecasting/linear.py`: calls
`fit_autoreg` directly, with no categorical-column check. -/
def elastic_net_fit (_kw : Kwargs) (_X : Option XSchema) : Except String Unit :=
  Except.ok ()

/-- A polars column: name, dtype, and row values (stringly encoded). -/
abbrev Col := String × DType × List String

/-- Polars `DataFrame.with_columns` semantics for one column: a column whose name
already exists replaces the existing column in place; otherwise it is
appended on the right. -/
def upsert_column (F : List Col) (c : Col) : List Col :=
  if c.1 ∈ F.map (fun x => x.1) then
    F.map (fun x => if x.1 = c.1 then c else x)
  else
    F ++ [c]

/-- Polars `DataFrame.with_columns` over a list of new columns. -/
def with_columns (F : List Col) (new : List Col) : List Col :=
  new.foldl upsert_column F

/-- The values of the frame's second column (`X.columns[1]`, the time
column by the panel convention). -/
def time_column_values (F : List Col) : List String :=
  ((F.getD 1 ("", DType.other, [])).2).2

/-- Function `add_calendar_effects` from `src/functime/feature_extraction/calendar.py`:
for each requested attribute, derives a column from the time column
(`getattr(time_col.dt, attr)()`, here the abstract per-attribute map
`attrVal`), casts it to categorical, names it after the attribute, and adds
it with `with_columns`. -/
def add_calendar_effects (attrVal : String → String → String) (attrs : List String)
    (F : List Col) : List Col :=
  with_columns F (attrs.map (fun a => (a, DType.cat, (time_column_values F).map (attrVal a))))

/-- Modelled from the spec: the `Difference(order=1, sp)` transform's
`forward` (implemented in `functime.preprocessing.diff`, not among the
provided sources) computes the seasonal difference `y[t] - y[t-sp]` per
entity, emitting one value for each `t ≥ sp`. -/
def diff_forward (sp : ℕ) (ys : List ℚ) : List ℚ :=
  List.zipWith (fun a b => a - b) (ys.drop sp) ys

/-- Modelled from the spec: the retained `TransformState` of `Difference`
for one entity — the first `sp` raw values (the last raw values before
each differenced position's chain starts). -/
def diff_state (sp : ℕ) (ys : List ℚ) : List ℚ :=
  ys.take sp

/-- Helper for `diff_invert`: walks the differenced values with a sliding
buffer of the last `sp` reconstructed raw values, cumulatively summing
differences back onto the value `sp` positions earlier. -/
def diff_invert_aux : List ℚ → List ℚ → List ℚ
  | _, [] => []
  | [], _ :: _ => []
  | b :: bs, d :: ds => (b + d) :: diff_invert_aux (bs ++ [b + d]) ds

/-- Modelled from the spec: `Difference.invert` reconstructs the original
values from the retained state by cumulatively summing differences back. -/
def diff_invert (state ds : List ℚ) : List ℚ :=
  state ++ diff_invert_aux state ds

/-- Modelled from the spec: `PowerTransform.forward` (implemented in
`functime.preprocessing.boxcox`, not among the provided sources) applies
the Box-Cox power map with the entity's fitted parameter `l`:
`log x` at `l = 0`, else `(x^l - 1)/l`. -/
noncomputable def boxcox_forward (l x : ℝ) : ℝ :=
  if l = 0 then Real.log x else (x ^ l - 1) / l

/-- Modelled from the spec: `PowerTransform.invert` applies the analytic
inverse of the power map using the stored parameter `l`. -/
noncomputable def boxcox_invert (l x : ℝ) : ℝ :=
  if l = 0 then Real.exp x else (l * x + 1) ^ (1 / l)

/-- Modelled from the spec: the lag `FeatureBuilder` (implemented in
`functime.preprocessing.lag`, not among the provided sources). A single
entity's series is `ys` indexed by observation count; for each time `t` with
every requested lag available (`k ≤ t` for all `k`), it emits the row
`(t, [y[t-k] for k in lags])`; rows lacking history are dropped. -/
def lag_features (lags : List ℕ) (ys : List ℚ) : List (ℕ × List ℚ) :=
  (List.range ys.length).filterMap (fun t =>
    if ∀ k ∈ lags, k ≤ t then
      some (t, lags.map (fun k => ys.getD (t - k) 0))
    else
      none)

/-- Modelled from the spec: the observations a rolling window of size `w`
at time `t` ranges over — exactly the values at indices in
`[t-w, t-1]`, strictly excluding `t`. -/
def window_slice (w t : ℕ) (ys : List ℚ) : List ℚ :=
  (List.range' (t - w) (min w t)).filterMap (fun i => ys[i]?)

/-- Modelled from the spec: the rolling-window `FeatureBuilder`
(implemented in `functime.preprocessing.roll`, not among the provided
sources) emits, at `(entity, t)`, the requested statistic applied to the
window `[t-w, t-1]` of that entity's series; the statistic itself (mean,
std, …) is an opaque reduction of the window. -/
def roll_feature (stat : List ℚ → ℚ) (w : ℕ) (ys : List ℚ) (t : ℕ) : ℚ :=
  stat (window_slice w t ys)

/-- The time column values belonging to one entity of a long-format panel
of (entity, time) rows. -/
def entity_times (P : List (String × ℤ)) (e : String) : List ℤ :=
  (P.filter (fun r => decide (r.1 = e))).map Prod.snd

/-- The per-entity cutoff computed by `make_future_calendar_effects` in
`src/functime/feature_extraction/calendar.py`:
`groupby(entity).agg(col(time).max())`. -/
def max_time : List ℤ → Option ℤ
  | [] => none
  | x :: xs => some (xs.foldl max x)

/-- Modelled from the spec: `make_future_ranges` (in `functime.ranges`, not
among the provided sources) produces, from a cutoff `T`, exactly `fh`
future timestamps spaced by the frequency step, starting one step after
`T`. -/
def future_range (T step : ℤ) (fh : ℕ) : List ℤ :=
  (List.range fh).map (fun (i : ℕ) => T + step * ((i : ℤ) + 1))

/-- The future timestamp grid of one entity: its own cutoff (per-entity max
of the time column) fed to `future_range`; `none` when the entity has no
rows. -/
def future_grid (P : List (String × ℤ)) (step : ℤ) (fh : ℕ) (e : String) :
    Option (List ℤ) :=
  (max_time (entity_times P e)).map (fun T => future_range T step fh)

/-- Modelled from the spec: the recursive strategy's walk-forward loop —
a single one-step model `m` is applied `fh` times, each prediction appended
to the entity's history before the next step. -/
def recursive_forecast (m : List ℚ → ℚ) : List ℚ → ℕ → List ℚ
  | _, 0 => []
  | hist, fh + 1 =>
      let p := m hist
      p :: recursive_forecast m (hist ++ [p]) fh

/-- Modelled from the spec: the direct strategy — model `h` predicts
horizon `h + 1` single-shot from the observed history. -/
def direct_forecast (models : ℕ → List ℚ → ℚ) (hist : List ℚ) (fh : ℕ) : List ℚ :=
  (List.range fh).map (fun h => models h hist)

/-- Modelled from the spec: the ensemble strategy — the unweighted
elementwise mean of the direct predictions and the recursive walk-forward
predictions. -/
def ensemble_forecast (models : ℕ → List ℚ → ℚ) (m : List ℚ → ℚ)
    (hist : List ℚ) (fh : ℕ) : List ℚ :=
  List.zipWith (fun a b => (a + b) / 2)
    (direct_forecast models hist fh) (recursive_forecast m hist fh)

/-- The holiday frame built by `add_holiday_effects` in
`src/functime/feature_extraction/calendar.py`: one row per unique input
timestamp, carrying the (possibly null) holiday label of that timestamp;
`label` abstracts the `holidays`-package lookup composed with the string
normalisation, a pure function of the timestamp. -/
def holiday_frame (label : ℤ → Option String) (ts : List ℤ) :
    List (ℤ × Option String) :=
  ts.map (fun t => (t, label t))

/-- Polars `X.join(holidays, how="left", on=time_col)` for a right table whose
time keys are unique: each left row keeps its key and picks up the single
matching label, or null when no row matches. -/
def left_join_time (X : List (String × ℤ)) (H : List (ℤ × Option String)) :
    List (String × ℤ × Option String) :=
  X.map (fun r => (r.1, r.2, (H.lookup r.2).join))

/-- Function `add_holiday_effects` (one country) from
`src/functime/feature_extraction/calendar.py`: collects the unique input
timestamps, labels each with the holiday lookup, and left-joins the labels
back onto the input rows by the time column. -/
def add_holiday_effects (label : ℤ → Option String) (X : List (String × ℤ)) :
    List (String × ℤ × Option String) :=
  left_join_time X (holiday_frame label ((X.map Prod.snd).dedup))

/-- Modelled from the spec: the output forecast schema — the (entity, time)
key columns, one value column per training target in training order, and
the auxiliary `threshold_proba` column exactly when a censored or
zero-inflated variant is used (the implementation lives in
`functime.forecasting.censored`, not among the provided sources). -/
def forecast_columns (entityCol timeCol : String) (targetCols : List String)
    (censored : Bool) : List String :=
  entityCol :: timeCol :: (targetCols ++ if censored then ["threshold_proba"] else [])

/-! ## Helper lemmas -/

theorem upsert_column_fresh (F : List Col) (c : Col)
    (h : c.1 ∉ F.map (fun x => x.1)) : upsert_column F c = F ++ [c] := by
  simp only [upsert_column, if_neg h]

theorem with_columns_fresh :
    ∀ (cs F : List Col), (cs.map (fun c => c.1)).Nodup →
      (∀ c ∈ cs, c.1 ∉ F.map (fun x => x.1)) →
      with_columns F cs = F ++ cs := by
  intro cs
  induction cs with
  | nil => intro F _ _; simp [with_columns]
  | cons c cs ih =>
      intro F hnd hfresh
      have hc : c.1 ∉ F.map (fun x => x.1) := hfresh c (List.mem_cons_self c cs)
      have hstep : with_columns F (c :: cs) = with_columns (F ++ [c]) cs := by
        simp only [with_columns, List.foldl_cons, upsert_column_fresh F c hc]
      rw [hstep, ih (F ++ [c]) (List.Nodup.of_cons hnd)]
      · simp
      · intro c' hc'
        simp only [List.map_append, List.mem_append, List.map_cons, List.map_nil,
          List.mem_singleton, not_or]
        refine ⟨hfresh c' (List.mem_cons_of_mem c hc'), ?_⟩
        intro hcontra
        have : c.1 ∈ cs.map (fun x => x.1) := by
          rw [← hcontra]; exact List.mem_map_of_mem _ hc'
        exact (List.nodup_cons.mp hnd).1 this

/-! ## Claim theorems -/

/-- C1: the claim says `linear_model._fit` raises the dummy-variable-trap
error whenever `X` has a categorical column and intercept fitting is on,
including when it is on only by sklearn's default rather than passed
explicitly. The code checks `kwargs.get("fit_intercept") is True`, so with
a categorical column and no explicit `fit_intercept` keyword it proceeds
to `fit_autoreg` without raising — contradicting the check's own error
message ("Must set fit_intercept=False if X contains categorical
columns"), since sklearn's `LinearRegression` fits an intercept by
default. -/
theorem linear_model_fit_default_intercept_no_raise :
    linear_model_fit [] (some [("color", DType.cat)]) = Except.ok () := rfl

/-- C9: only the plain `linear_model` forecaster performs the
dummy-variable-trap check. For every kwargs and every exogenous schema
with a categorical column, `lasso._fit`, `ridge._fit` and
`elastic_net._fit` proceed straight to `fit_autoreg` without raising,
while `linear_model._fit` raises whenever `fit_intercept` is explicitly
`True`. -/
theorem only_linear_model_checks_dummy_trap (kw : Kwargs) (X : XSchema)
    (hcat : has_categorical X = true) :
    lasso_fit kw (some X) = Except.ok ()
    ∧ ridge_fit kw (some X) = Except.ok ()
    ∧ elastic_net_fit kw (some X) = Except.ok ()
    ∧ (kwargs_get kw "fit_intercept" = some (PyVal.pybool true) →
        ∃ msg, linear_model_fit kw (some X) = Except.error msg) := by
  refine ⟨rfl, rfl, rfl, ?_⟩
  intro hkw
  refine ⟨"Dummy variable trap! Must set fit_intercept=False if X contains categorical columns.", ?_⟩
  simp [linear_model_fit, hcat, hkw]

theorem only_linear_model_checks_dummy_trap_witness :
    lasso_fit [("fit_intercept", PyVal.pybool true)] (some [("color", DType.cat)]) = Except.ok ()
    ∧ ridge_fit [("fit_intercept", PyVal.pybool true)] (some [("color", DType.cat)]) = Except.ok ()
    ∧ elastic_net_fit [("fit_intercept", PyVal.pybool true)] (some [("color", DType.cat)]) = Except.ok ()
    ∧ (kwargs_get [("fit_intercept", PyVal.pybool true)] "fit_intercept" = some (PyVal.pybool true) →
        ∃ msg, linear_model_fit [("fit_intercept", PyVal.pybool true)]
          (some [("color", DType.cat)]) = Except.error msg) :=
  only_linear_model_checks_dummy_trap
    [("fit_intercept", PyVal.pybool true)] [("color", DType.cat)] rfl

/-- C10 counterexample: on a frame that already has a column named
`month`, requesting the `month` calendar attribute replaces the existing
column in place (`with_columns` semantics) instead of leaving the original
columns unchanged and appending — the resulting column-name list is not
the original names followed by the attribute. -/
theorem add_calendar_effects_counterexample :
    (add_calendar_effects (fun _ _ => "1") ["month"]
        [("entity", DType.other, ["a"]), ("time", DType.other, ["2000-01-01"]),
         ("month", DType.other, ["7"])]).map (fun c => c.1)
      ≠ ([("entity", DType.other, ["a"]), ("time", DType.other, ["2000-01-01"]),
          ("month", DType.other, ["7"])].map (fun c => c.1)) ++ ["month"] := by
  decide

/-- C10 (amended): provided the requested attribute names are distinct and
none collides with an existing column name, `add_calendar_effects` returns
all of the input's columns unchanged, followed by exactly one appended
column per requested attribute, named after the attribute, of Categorical
dtype, with each row's value derived solely from that row's timestamp (the
second column). -/
theorem add_calendar_effects_spec (attrVal : String → String → String)
    (attrs : List String) (F : List Col) (hnd : attrs.Nodup)
    (hfresh : ∀ a ∈ attrs, a ∉ F.map (fun c => c.1)) :
    add_calendar_effects attrVal attrs F
      = F ++ attrs.map (fun a => (a, DType.cat, (time_column_values F).map (attrVal a))) := by
  refine with_columns_fresh _ F ?_ ?_
  · have hcomp : ((fun (c : Col) => c.1) ∘
        fun a => ((a, DType.cat, (time_column_values F).map (attrVal a)) : Col)) = id := by
      funext a; rfl
    rw [List.map_map, hcomp, List.map_id]
    exact hnd
  · intro c hc
    simp only [List.mem_map] at hc
    obtain ⟨a, ha, rfl⟩ := hc
    exact hfresh a ha

theorem diff_invert_aux_restores :
    ∀ (tail buf : List ℚ), buf ≠ [] →
      diff_invert_aux buf (List.zipWith (fun a b => a - b) tail (buf ++ tail)) = tail := by
  intro tail
  induction tail with
  | nil => intro buf _; simp [diff_invert_aux]
  | cons t ts ih =>
      intro buf hbuf
      match buf, hbuf with
      | b :: bs, _ =>
          have hz : List.zipWith (fun a b => a - b) (t :: ts) ((b :: bs) ++ (t :: ts))
              = (t - b) :: List.zipWith (fun a b => a - b) ts ((bs ++ [t]) ++ ts) := by
            simp
          rw [hz]
          show (b + (t - b)) :: diff_invert_aux (bs ++ [b + (t - b)])
              (List.zipWith (fun a b => a - b) ts ((bs ++ [t]) ++ ts)) = t :: ts
          have hb : b + (t - b) = t := by ring
          rw [hb, ih (bs ++ [t]) (by simp)]

/-- C2: applying each invertible transform's forward then its invert
restores the original values exactly (hence within any relative
tolerance), per entity: the order-1 seasonal Difference for every seasonal
period `sp ≥ 1` and every series, and the Box-Cox power map for every
fitted parameter and every strictly positive value. -/
theorem invertible_transform_roundtrip :
    (∀ (sp : ℕ), 1 ≤ sp → ∀ ys : List ℚ,
        diff_invert (diff_state sp ys) (diff_forward sp ys) = ys)
    ∧ (∀ (l x : ℝ), 0 < x → boxcox_invert l (boxcox_forward l x) = x) := by
  constructor
  · intro sp hsp ys
    match ys with
    | [] => simp [diff_invert, diff_state, diff_forward, diff_invert_aux]
    | y :: ys' =>
        have hne : diff_state sp (y :: ys') ≠ [] := by
          match sp, hsp with
          | sp' + 1, _ => simp [diff_state]
        have hsplit : (y :: ys') = diff_state sp (y :: ys') ++ (y :: ys').drop sp :=
          (List.take_append_drop sp (y :: ys')).symm
        have hfwd : diff_forward sp (y :: ys')
            = List.zipWith (fun a b => a - b) ((y :: ys').drop sp)
                (diff_state sp (y :: ys') ++ (y :: ys').drop sp) := by
          rw [diff_forward]
          exact congrArg _ hsplit
        rw [diff_invert, hfwd, diff_invert_aux_restores _ _ hne]
        exact hsplit.symm
  · intro l x hx
    by_cases hl : l = 0
    · simp [boxcox_forward, boxcox_invert, hl, Real.exp_log hx]
    · have hmul : l * ((x ^ l - 1) / l) + 1 = x ^ l := by
        field_simp
      rw [boxcox_forward, boxcox_invert, if_neg hl, if_neg hl, hmul,
        ← Real.rpow_mul hx.le, mul_one_div_cancel hl, Real.rpow_one]

theorem invertible_transform_roundtrip_witness :
    diff_invert (diff_state 1 [1, 2, 4]) (diff_forward 1 [1, 2, 4]) = [1, 2, 4]
    ∧ boxcox_invert 0 (boxcox_forward 0 2) = 2 :=
  ⟨invertible_transform_roundtrip.1 1 (by decide) [1, 2, 4],
   invertible_transform_roundtrip.2 0 2 (by norm_num)⟩

theorem add_calendar_effects_spec_witness :
    add_calendar_effects (fun a t => a ++ t) ["month", "day"]
        [("entity", DType.other, ["x", "y"]), ("time", DType.other, ["2000", "2001"])]
      = [("entity", DType.other, ["x", "y"]), ("time", DType.other, ["2000", "2001"])]
        ++ [("month", DType.cat, ["month2000", "month2001"]),
            ("day", DType.cat, ["day2000", "day2001"])] := by
  have h := add_calendar_effects_spec (fun a t => a ++ t) ["month", "day"]
    [("entity", DType.other, ["x", "y"]), ("time", DType.other, ["2000", "2001"])]
    (by decide) (by decide)
  simpa using h

/-- C3: for every requested lag list and every entity series, (a) a row at
time `t` is present in the lag feature output exactly when `t` is an
observed time and every requested lag reaches back no further than the
entity's first observation — rows lacking history are absent, never
null-filled; (b) in every emitted row, the feature for the `i`-th
requested lag `k` equals the entity's raw value at time `t - k`. -/
theorem lag_features_spec (lags : List ℕ) (ys : List ℚ) (t : ℕ) :
    ((∃ F, (t, F) ∈ lag_features lags ys) ↔ (t < ys.length ∧ ∀ k ∈ lags, k ≤ t))
    ∧ (∀ F, (t, F) ∈ lag_features lags ys → ∀ i, i < lags.length →
        F.getD i 0 = ys.getD (t - lags.getD i 0) 0) := by
  constructor
  · constructor
    · rintro ⟨F, hF⟩
      simp only [lag_features, List.mem_filterMap, List.mem_range] at hF
      obtain ⟨a, ha, heq⟩ := hF
      split at heq
      · rename_i hall
        rw [Option.some_inj, Prod.mk.injEq] at heq
        obtain ⟨rfl, _⟩ := heq
        exact ⟨ha, hall⟩
      · exact absurd heq (by simp)
    · rintro ⟨hlen, hall⟩
      refine ⟨lags.map (fun k => ys.getD (t - k) 0), ?_⟩
      simp only [lag_features, List.mem_filterMap, List.mem_range]
      exact ⟨t, hlen, by rw [if_pos hall]⟩
  · intro F hF i hi
    simp only [lag_features, List.mem_filterMap, List.mem_range] at hF
    obtain ⟨a, _, heq⟩ := hF
    split at heq
    · rw [Option.some_inj, Prod.mk.injEq] at heq
      obtain ⟨rfl, rfl⟩ := heq
      rw [List.getD_eq_getElem _ _ (by simpa using hi), List.getElem_map,
        List.getD_eq_getElem _ _ hi]
    · exact absurd heq (by simp)

theorem lag_features_spec_witness :
    (∃ F, (2, F) ∈ lag_features [1, 2] ([10, 20, 30] : List ℚ))
    ∧ (([20, 10] : List ℚ).getD 0 0
        = ([10, 20, 30] : List ℚ).getD (2 - [1, 2].getD 0 0) 0) :=
  ⟨(lag_features_spec [1, 2] [10, 20, 30] 2).1.mpr (by decide),
   (lag_features_spec [1, 2] [10, 20, 30] 2).2 [20, 10] (by decide) 0 (by decide)⟩

/-- C4: the rolling-window feature at `(entity, t)` is computed only over
the observations in `[t-w, t-1]` and never depends on any value at time
`≥ t`: two entity series that agree on all observations strictly before
`t` yield the same window statistic at `t`, for every window size and
every statistic. -/
theorem roll_feature_no_leakage (stat : List ℚ → ℚ) (w t : ℕ) (ys₁ ys₂ : List ℚ)
    (h : ys₁.take t = ys₂.take t) :
    roll_feature stat w ys₁ t = roll_feature stat w ys₂ t := by
  unfold roll_feature
  congr 1
  unfold window_slice
  refine List.filterMap_congr ?_
  intro i hi
  have hit : i < t := by
    rw [List.mem_range'_1] at hi
    omega
  calc ys₁[i]? = (ys₁.take t)[i]? := (List.getElem?_take_of_lt hit).symm
    _ = (ys₂.take t)[i]? := by rw [h]
    _ = ys₂[i]? := List.getElem?_take_of_lt hit

theorem roll_feature_no_leakage_witness :
    roll_feature List.sum 2 ([1, 2, 3] : List ℚ) 2
      = roll_feature List.sum 2 ([1, 2, 99] : List ℚ) 2 :=
  roll_feature_no_leakage List.sum 2 2 [1, 2, 3] [1, 2, 99] (by decide)

/-- C5: for every entity with at least one observation and every horizon
`fh ≥ 1`, the future range generator returns exactly `fh` timestamps,
strictly increasing, starting one frequency step after that entity's own
last observed timestamp (its per-entity maximum of the time column), and
the grid is unchanged under any modification of the panel that preserves
that entity's own rows. -/
theorem future_range_spec (step : ℤ) (hstep : 0 < step) (fh : ℕ) (hfh : 1 ≤ fh)
    (P P' : List (String × ℤ)) (e : String) (T : ℤ)
    (hT : max_time (entity_times P e) = some T)
    (hagree : entity_times P' e = entity_times P e) :
    future_grid P step fh e = some (future_range T step fh)
    ∧ future_grid P' step fh e = future_grid P step fh e
    ∧ (future_range T step fh).length = fh
    ∧ (future_range T step fh).Pairwise (· < ·)
    ∧ (future_range T step fh).getD 0 0 = T + step := by
  refine ⟨by simp [future_grid, hT], by simp [future_grid, hagree], by simp [future_range], ?_, ?_⟩
  · rw [future_range, List.pairwise_map]
    refine (List.pairwise_lt_range fh).imp ?_
    intro a b hab
    have hcast : (a : ℤ) + 1 < (b : ℤ) + 1 := by exact_mod_cast Nat.succ_lt_succ hab
    have := mul_lt_mul_of_pos_left hcast hstep
    linarith
  · have hlen : 0 < (future_range T step fh).length := by
      simp only [future_range, List.length_map, List.length_range]
      omega
    rw [List.getD_eq_getElem _ _ hlen]
    simp only [future_range, List.getElem_map, List.getElem_range]
    push_cast
    ring

theorem future_range_spec_witness :
    future_grid [("a", 5), ("a", 7), ("b", 100)] 1 3 "a" = some (future_range 7 1 3)
    ∧ future_grid [("z", 0), ("a", 5), ("a", 7)] 1 3 "a"
        = future_grid [("a", 5), ("a", 7), ("b", 100)] 1 3 "a"
    ∧ (future_range 7 1 3).length = 3
    ∧ (future_range 7 1 3).Pairwise (· < ·)
    ∧ (future_range 7 1 3).getD 0 0 = 7 + 1 :=
  future_range_spec 1 (by decide) 3 (by decide)
    [("a", 5), ("a", 7), ("b", 100)] [("z", 0), ("a", 5), ("a", 7)] "a" 7
    (by decide) (by decide)

theorem recursive_forecast_length (m : List ℚ → ℚ) :
    ∀ (hist : List ℚ) (fh : ℕ), (recursive_forecast m hist fh).length = fh := by
  intro hist fh
  induction fh generalizing hist with
  | zero => rfl
  | succ n ih => simp [recursive_forecast, ih]

/-- C6: for every fitted ensemble-strategy forecaster and every horizon
index in the prediction grid, the ensemble prediction equals the
unweighted elementwise mean of the direct-strategy prediction and the
recursive walk-forward prediction at that horizon. -/
theorem ensemble_is_unweighted_mean (models : ℕ → List ℚ → ℚ) (m : List ℚ → ℚ)
    (hist : List ℚ) (fh h : ℕ) (hh : h < fh) :
    (ensemble_forecast models m hist fh).getD h 0
      = ((direct_forecast models hist fh).getD h 0
          + (recursive_forecast m hist fh).getD h 0) / 2 := by
  have hd : (direct_forecast models hist fh).length = fh := by simp [direct_forecast]
  have hr : (recursive_forecast m hist fh).length = fh := recursive_forecast_length m hist fh
  have he : (ensemble_forecast models m hist fh).length = fh := by
    simp [ensemble_forecast, hd, hr]
  rw [List.getD_eq_getElem _ _ (by omega : h < (ensemble_forecast models m hist fh).length),
    List.getD_eq_getElem _ _ (by omega : h < (direct_forecast models hist fh).length),
    List.getD_eq_getElem _ _ (by omega : h < (recursive_forecast m hist fh).length)]
  exact List.getElem_zipWith

theorem ensemble_is_unweighted_mean_witness :
    (ensemble_forecast (fun _ _ => 1) (fun l => l.sum) [1] 2).getD 1 0
      = ((direct_forecast (fun _ _ => 1) [1] 2).getD 1 0
          + (recursive_forecast (fun l => l.sum) [1] 2).getD 1 0) / 2 :=
  ensemble_is_unweighted_mean (fun _ _ => 1) (fun l => l.sum) [1] 2 1 (by decide)

theorem holiday_frame_lookup (label : ℤ → Option String) :
    ∀ (ts : List ℤ) (t : ℤ), t ∈ ts →
      (holiday_frame label ts).lookup t = some (label t) := by
  intro ts
  induction ts with
  | nil => intro t ht; exact absurd ht (List.not_mem_nil t)
  | cons a as ih =>
      intro t ht
      by_cases hta : t = a
      · subst hta
        simp [holiday_frame, List.lookup]
      · have : t ∈ as := by
          rcases List.mem_cons.mp ht with h | h
          · exact absurd h hta
          · exact h
        have hbeq : (t == a) = false := beq_false_of_ne hta
        simpa [holiday_frame, List.lookup, hbeq] using ih t this

/-- C7: the holiday feature collaborator's output is aligned to the input
rows: the (entity, time) keys of the joined result equal those of the
input, in order, and the row for `(e, t)` receives exactly the holiday
label of timestamp `t` — a pure function of the timestamp. -/
theorem add_holiday_effects_aligned (label : ℤ → Option String)
    (X : List (String × ℤ)) :
    ((add_holiday_effects label X).map (fun r => (r.1, r.2.1)) = X)
    ∧ (∀ r ∈ add_holiday_effects label X, r.2.2 = label r.2.1) := by
  constructor
  · simp only [add_holiday_effects, left_join_time, List.map_map]
    have : ((fun (r : String × ℤ × Option String) => (r.1, r.2.1)) ∘
        fun (r : String × ℤ) =>
          (r.1, r.2, ((holiday_frame label ((X.map Prod.snd).dedup)).lookup r.2).join))
        = id := by
      funext r; rfl
    rw [this, List.map_id]
  · intro r hr
    simp only [add_holiday_effects, left_join_time, List.mem_map] at hr
    obtain ⟨x, hx, rfl⟩ := hr
    show ((holiday_frame label ((X.map Prod.snd).dedup)).lookup x.2).join = label x.2
    rw [holiday_frame_lookup label _ x.2
      (List.mem_dedup.mpr (List.mem_map_of_mem Prod.snd hx))]
    rfl

theorem add_holiday_effects_aligned_witness :
    ("a", (1 : ℤ), some "new_years_day").2.2
      = (fun t => if t = (1 : ℤ) then some "new_years_day" else none)
          (("a", (1 : ℤ), some "new_years_day") : String × ℤ × Option String).2.1 :=
  (add_holiday_effects_aligned
      (fun t => if t = (1 : ℤ) then some "new_years_day" else none)
      [("a", 1), ("b", 2)]).2
    ("a", 1, some "new_years_day") (by decide)

/-- C8: for every censored or zero-inflated model run, the forecast table's
columns are, in order, the (entity, time) key columns, the value columns in
training order, then the auxiliary `threshold_proba` column; the
probability column is a member of the schema exactly when a
censored/zero-inflated variant is used. -/
theorem forecast_columns_spec (e t : String) (targets : List String) (c : Bool)
    (he : e ≠ "threshold_proba") (ht : t ≠ "threshold_proba")
    (htg : "threshold_proba" ∉ targets) :
    forecast_columns e t targets false = e :: t :: targets
    ∧ forecast_columns e t targets true = (e :: t :: targets) ++ ["threshold_proba"]
    ∧ ("threshold_proba" ∈ forecast_columns e t targets c ↔ c = true) := by
  refine ⟨by simp [forecast_columns], by simp [forecast_columns], ?_⟩
  cases c
  · simp [forecast_columns, htg, Ne.symm he, Ne.symm ht]
  · simp [forecast_columns]

theorem forecast_columns_spec_witness :
    forecast_columns "entity" "time" ["sales"] false = "entity" :: "time" :: ["sales"]
    ∧ forecast_columns "entity" "time" ["sales"] true
        = ("entity" :: "time" :: ["sales"]) ++ ["threshold_proba"]
    ∧ ("threshold_proba" ∈ forecast_columns "entity" "time" ["sales"] true ↔ true = true) :=
  forecast_columns_spec "entity" "time" ["sales"] true
    (by decide) (by decide) (by decide)

end Functime
